import Mathlib

/-!
Verification of the `ordered-buffer` reorder buffer.

Shallow embedding of `src/lib.rs` (crate `ordered-buffer`): a fixed-capacity
reorder buffer that accepts `(sequence_number, item)` pairs arriving in any
order and releases them strictly in sequence-number order.

Modelling conventions:
* The Rust const-generic capacity `N` is the length of the `items` list; every
  theorem that speaks about a capacity `N` carries `b.items.length = N`
  through the well-formedness predicate.
* `u64` / `usize` are modelled as `Nat` (the code targets 64-bit platforms,
  where `as usize` is the identity on the values a run can produce).
* Array indexing `self.items[i]` is modelled with `List.getD · none`; the
  in-bounds side conditions of the two indexing sites are proved separately
  (see the safety theorem for the construction/indexing claim).
* The drain iterator is a state-passing step function `next`; the Rust `Drop`
  impl (which exhausts the iterator) corresponds to running `drain` to its
  fixpoint.
-/

namespace OrderedBufferSpec

/-- Mirror of `InsertResult` from `src/lib.rs` (the `Inserted` variant's borrowed
iterator is modelled separately by the `next`/`drain` functions). -/
inductive InsertResult where
  | Inserted
  | Expired
  | Duplicate
  | FullBuffer
deriving DecidableEq

/-- Mirror of `OrderedBuffer<T, N>` from `src/lib.rs`:
`items: [Option<(u64, T)>; N]`, `read_pos: usize`, `next_sequence_number: u64`.
The capacity `N` is `items.length`. -/
structure OrderedBuffer (T : Type) where
  items : List (Option (Nat × T))
  read_pos : Nat
  next_sequence_number : Nat
deriving DecidableEq

/-- Model of the construction check `assert_buffer_size` — `true` means
the assertion passes, `false` means the construction aborts. -/
def assert_buffer_size (n : Nat) : Bool := decide (0 < n)

namespace OrderedBuffer

variable {T : Type}

/-- Mirror of `OrderedBuffer::new` for capacity `N`: all slots empty, `read_pos = 0`,
`next_sequence_number = 0`. -/
def new (T : Type) (N : Nat) : OrderedBuffer T :=
  { items := List.replicate N none, read_pos := 0, next_sequence_number := 0 }

/-- Mirror of `OrderedBuffer::insert`. Returns the `InsertResult` together with the
buffer state after the call (the Rust method mutates `self`). -/
def insert (b : OrderedBuffer T) (new_sequence_number : Nat) (item : T) :
    InsertResult × OrderedBuffer T :=
  let new_slot := new_sequence_number % b.items.length
  match b.items.getD new_slot none with
  | some (existing_sequence_number, _) =>
      if new_sequence_number < existing_sequence_number then
        (InsertResult.Expired, b)
      else if new_sequence_number = existing_sequence_number then
        (InsertResult.Duplicate, b)
      else
        (InsertResult.FullBuffer, b)
  | none =>
      if b.next_sequence_number + b.items.length ≤ new_sequence_number then
        (InsertResult.FullBuffer, b)
      else if new_sequence_number < b.next_sequence_number then
        (InsertResult.Duplicate, b)
      else
        (InsertResult.Inserted,
          { b with items := b.items.set new_slot (some (new_sequence_number, item)) })

/-- Mirror of `OrderedBuffer::reset`: clears the buffer and resets all counters. -/
def reset (b : OrderedBuffer T) : OrderedBuffer T :=
  { items := List.replicate b.items.length none, read_pos := 0, next_sequence_number := 0 }

/-- One step of `OrderedBufferIterator::next`. The Rust iterator yields only
`msg`; the model also returns the taken `sequence_number` (which the source
reads in the same closure) so that theorems can speak about delivered
sequence numbers. `none` means the iterator stopped at an empty slot. -/
def next (b : OrderedBuffer T) : Option (Nat × T) × OrderedBuffer T :=
  match b.items.getD b.read_pos none with
  | none => (none, b)
  | some (sequence_number, msg) =>
      (some (sequence_number, msg),
        { items := b.items.set b.read_pos none,
          read_pos := (b.read_pos + 1) % b.items.length,
          next_sequence_number := sequence_number + 1 })

/-- Fuelled exhaustion of the drain iterator: keep taking while the slot at
`read_pos` is occupied. -/
def drainAux : Nat → OrderedBuffer T → List (Nat × T) × OrderedBuffer T
  | 0, b => ([], b)
  | Nat.succ fuel, b =>
      match b.next with
      | (none, _) => ([], b)
      | (some p, b1) =>
          let r := drainAux fuel b1
          (p :: r.1, r.2)

/-- Running the drain iterator to exhaustion (what `collect` or the `Drop`
impl of `OrderedBufferIterator` does). Fuel `items.length` always suffices
(proved below: each yielding step empties one occupied slot). -/
def drain (b : OrderedBuffer T) : List (Nat × T) × OrderedBuffer T :=
  drainAux b.items.length b

/-- Performing `k` bare steps of the drain iterator (a caller consuming `k` items and
stopping). -/
def stepIter : Nat → OrderedBuffer T → OrderedBuffer T
  | 0, b => b
  | Nat.succ k, b => stepIter k (b.next).2

/-- Number of occupied slots. -/
def occupied (b : OrderedBuffer T) : Nat := b.items.countP fun o => o.isSome

/-- Some slot currently stores sequence number `s`. -/
def hasSeq (b : OrderedBuffer T) (s : Nat) : Prop :=
  ∃ j x, b.items.getD j none = some (s, x)

/-- The structural invariant of a capacity-`N` buffer (spec §3/§8): every
occupied slot `j` stores a sequence number `e` with `e % N = j` lying in the
window `[next_sequence_number, next_sequence_number + N)`, and
`read_pos = next_sequence_number % N`. -/
def WF (N : Nat) (b : OrderedBuffer T) : Prop :=
  0 < N ∧ b.items.length = N ∧ b.read_pos = b.next_sequence_number % N ∧
    ∀ j e x, b.items.getD j none = some (e, x) →
      e % N = j ∧ b.next_sequence_number ≤ e ∧ e < b.next_sequence_number + N

/-- The slot at `read_pos` is empty: the state in which every completed
drain leaves the buffer (and in which every `insert` call site finds it,
since the iterator's borrow forces the drain to finish first). -/
def atRest (b : OrderedBuffer T) : Prop :=
  b.items.getD b.read_pos none = none

end OrderedBuffer

/-- A fine-grained operation on the buffer: one `insert` call, one bare step
of a drain iterator, or one `reset` call. -/
inductive FOp (T : Type) where
  | ins (s : Nat) (item : T)
  | step
  | reset

open OrderedBuffer in
/-- Apply one fine-grained operation. -/
def fapply {T : Type} (b : OrderedBuffer T) : FOp T → OrderedBuffer T
  | FOp.ins s item => (b.insert s item).2
  | FOp.step => (b.next).2
  | FOp.reset => b.reset

/-- The buffer state after a list of fine-grained operations, starting from
a freshly constructed capacity-`N` buffer. -/
def frun (T : Type) (N : Nat) (l : List (FOp T)) : OrderedBuffer T :=
  l.foldl fapply (OrderedBuffer.new T N)

/-- Reachability: some sequence of `insert` calls, drain steps and `reset`
calls leads from a fresh capacity-`N` buffer to `b`. -/
def Reachable (T : Type) (N : Nat) (b : OrderedBuffer T) : Prop :=
  ∃ l : List (FOp T), frun T N l = b

open OrderedBuffer in
/-- One step of the boundary-level workload semantics: an `insert` call
followed — when it returns `Inserted` — by the full drain that the borrowed
iterator forces before the caller can touch the buffer again (either the
caller consumes it or `Drop` exhausts it). The accumulator carries the buffer,
the pairs yielded by all drains so far, and the sequence numbers whose insert
returned `Inserted` so far. -/
def runStep {T : Type} (acc : OrderedBuffer T × List (Nat × T) × List Nat)
    (p : Nat × T) : OrderedBuffer T × List (Nat × T) × List Nat :=
  match insert acc.1 p.1 p.2 with
  | (InsertResult.Inserted, b1) =>
      let d := drain b1
      (d.2, acc.2.1 ++ d.1, acc.2.2 ++ [p.1])
  | (_, b1) => (b1, acc.2.1, acc.2.2)

/-- Boundary-level run from an arbitrary start state. -/
def runFrom {T : Type} (b : OrderedBuffer T) (l : List (Nat × T)) :
    OrderedBuffer T × List (Nat × T) × List Nat :=
  l.foldl runStep (b, [], [])

/-- Boundary-level run of an insert workload on a fresh capacity-`N` buffer:
final state, all pairs yielded by drains (in order), and the successfully
inserted sequence numbers (in order). -/
def run (T : Type) (N : Nat) (l : List (Nat × T)) :
    OrderedBuffer T × List (Nat × T) × List Nat :=
  runFrom (OrderedBuffer.new T N) l

/-! ## List indexing helpers -/

lemma getD_none_of_le {α : Type _} (l : List (Option α)) {j : Nat}
    (h : l.length ≤ j) : l.getD j none = none := by
  rw [List.getD_eq_getElem?_getD, List.getElem?_eq_none h]
  rfl

lemma lt_length_of_getD_some {α : Type _} {l : List (Option α)} {j : Nat}
    {a : α} (h : l.getD j none = some a) : j < l.length := by
  by_contra hc
  rw [getD_none_of_le l (Nat.le_of_not_lt hc)] at h
  exact Option.noConfusion h

lemma getElem?_of_getD_some {α : Type _} {l : List (Option α)} {j : Nat}
    {a : α} (h : l.getD j none = some a) : l[j]? = some (some a) := by
  have hj : j < l.length := lt_length_of_getD_some h
  rw [List.getD_eq_getElem?_getD, List.getElem?_eq_getElem hj] at h
  rw [List.getElem?_eq_getElem hj]
  exact congrArg some h

lemma getD_set_self {α : Type _} {l : List (Option α)} {j : Nat}
    (h : j < l.length) (a : Option α) : (l.set j a).getD j none = a := by
  rw [List.getD_eq_getElem?_getD, List.getElem?_set_self', List.getElem?_eq_getElem h]
  rfl

lemma getD_set_ne {α : Type _} (l : List (Option α)) {i j : Nat} (h : i ≠ j)
    (a : Option α) : (l.set i a).getD j none = l.getD j none := by
  rw [List.getD_eq_getElem?_getD, List.getElem?_set_ne h, ← List.getD_eq_getElem?_getD]

lemma getD_replicate {α : Type _} (n j : Nat) :
    (List.replicate n (none : Option α)).getD j none = none := by
  rw [List.getD_eq_getElem?_getD, List.getElem?_replicate]
  split <;> rfl

namespace OrderedBuffer

variable {T : Type}

/-! ## Case analysis of `insert` -/

lemma insert_occupied_lt {b : OrderedBuffer T} {s : Nat} {e : Nat} {x : T}
    (hm : b.items.getD (s % b.items.length) none = some (e, x)) (h : s < e)
    (it : T) : b.insert s it = (InsertResult.Expired, b) := by
  simp only [insert, hm]
  rw [if_pos h]

lemma insert_occupied_eq {b : OrderedBuffer T} {s : Nat} {e : Nat} {x : T}
    (hm : b.items.getD (s % b.items.length) none = some (e, x)) (h : s = e)
    (it : T) : b.insert s it = (InsertResult.Duplicate, b) := by
  simp only [insert, hm]
  rw [if_neg (by omega), if_pos h]

lemma insert_occupied_gt {b : OrderedBuffer T} {s : Nat} {e : Nat} {x : T}
    (hm : b.items.getD (s % b.items.length) none = some (e, x)) (h : e < s)
    (it : T) : b.insert s it = (InsertResult.FullBuffer, b) := by
  simp only [insert, hm]
  rw [if_neg (by omega), if_neg (by omega)]

lemma insert_empty_full {b : OrderedBuffer T} {s : Nat}
    (hm : b.items.getD (s % b.items.length) none = none)
    (h : b.next_sequence_number + b.items.length ≤ s) (it : T) :
    b.insert s it = (InsertResult.FullBuffer, b) := by
  simp only [insert, hm]
  rw [if_pos h]

lemma insert_empty_dup {b : OrderedBuffer T} {s : Nat}
    (hm : b.items.getD (s % b.items.length) none = none)
    (h1 : s < b.next_sequence_number + b.items.length)
    (h2 : s < b.next_sequence_number) (it : T) :
    b.insert s it = (InsertResult.Duplicate, b) := by
  simp only [insert, hm]
  rw [if_neg (by omega), if_pos h2]

lemma insert_empty_store {b : OrderedBuffer T} {s : Nat}
    (hm : b.items.getD (s % b.items.length) none = none)
    (h1 : s < b.next_sequence_number + b.items.length)
    (h2 : b.next_sequence_number ≤ s) (it : T) :
    b.insert s it = (InsertResult.Inserted,
      { b with items := b.items.set (s % b.items.length) (some (s, it)) }) := by
  simp only [insert, hm]
  rw [if_neg (by omega), if_neg (by omega)]

lemma insert_not_inserted_eq {b : OrderedBuffer T} {s : Nat} {it : T}
    (h : (b.insert s it).1 ≠ InsertResult.Inserted) : (b.insert s it).2 = b := by
  rcases hm : b.items.getD (s % b.items.length) none with _ | ⟨e, x⟩
  · by_cases h1 : b.next_sequence_number + b.items.length ≤ s
    · rw [insert_empty_full hm h1]
    · by_cases h2 : s < b.next_sequence_number
      · rw [insert_empty_dup hm (by omega) h2]
      · rw [insert_empty_store hm (by omega) (by omega)] at h ⊢
        exact absurd rfl h
  · rcases Nat.lt_trichotomy s e with hlt | heq | hgt
    · rw [insert_occupied_lt hm hlt]
    · rw [insert_occupied_eq hm heq]
    · rw [insert_occupied_gt hm hgt]

/-! ## Case analysis of `next` -/

lemma next_empty {b : OrderedBuffer T} (hm : b.items.getD b.read_pos none = none) :
    b.next = (none, b) := by
  simp only [next, hm]

lemma next_occupied {b : OrderedBuffer T} {e : Nat} {x : T}
    (hm : b.items.getD b.read_pos none = some (e, x)) :
    b.next = (some (e, x),
      { items := b.items.set b.read_pos none,
        read_pos := (b.read_pos + 1) % b.items.length,
        next_sequence_number := e + 1 }) := by
  simp only [next, hm]

/-! ## Occupancy counting -/

lemma occupied_le_length (b : OrderedBuffer T) : b.occupied ≤ b.items.length :=
  List.countP_le_length _

lemma getD_eq_none_of_occupied_zero {b : OrderedBuffer T} (h : b.occupied = 0)
    (j : Nat) : b.items.getD j none = none := by
  rcases hm : b.items.getD j none with _ | a
  · rfl
  · exfalso
    have hmem : some a ∈ b.items := List.getElem?_mem (getElem?_of_getD_some hm)
    have := (List.countP_eq_zero.1 h) _ hmem
    simp at this

lemma getElem_of_getD_some {b : OrderedBuffer T} {j : Nat} {a : Nat × T}
    (hm : b.items.getD j none = some a) (hj : j < b.items.length) :
    b.items[j] = some a := by
  have := getElem?_of_getD_some hm
  rw [List.getElem?_eq_getElem hj] at this
  exact Option.some.inj this

lemma occupied_next {b : OrderedBuffer T} {e : Nat} {x : T}
    (hm : b.items.getD b.read_pos none = some (e, x)) :
    (b.next).2.occupied + 1 = b.occupied := by
  have hj : b.read_pos < b.items.length := lt_length_of_getD_some hm
  have hget : b.items[b.read_pos] = some (e, x) := getElem_of_getD_some hm hj
  rw [next_occupied hm]
  simp only [occupied]
  rw [List.countP_set _ _ _ _ hj, hget]
  simp only [Option.isSome_some, Option.isSome_none, if_true, Bool.false_eq_true,
    if_false]
  have hpos : 0 < b.items.countP (fun o => o.isSome) := by
    rw [List.countP_pos_iff]
    exact ⟨some (e, x), List.getElem?_mem (getElem?_of_getD_some hm), by simp⟩
  omega

lemma length_next (b : OrderedBuffer T) :
    (b.next).2.items.length = b.items.length := by
  rcases hm : b.items.getD b.read_pos none with _ | ⟨e, x⟩
  · rw [next_empty hm]
  · rw [next_occupied hm]
    simp

lemma length_insert (b : OrderedBuffer T) (s : Nat) (it : T) :
    (b.insert s it).2.items.length = b.items.length := by
  by_cases h : (b.insert s it).1 = InsertResult.Inserted
  · rcases hm : b.items.getD (s % b.items.length) none with _ | ⟨e, x⟩
    · by_cases h1 : b.next_sequence_number + b.items.length ≤ s
      · rw [insert_empty_full hm h1]
      · by_cases h2 : s < b.next_sequence_number
        · rw [insert_empty_dup hm (by omega) h2]
        · rw [insert_empty_store hm (by omega) (by omega)]
          simp
    · rcases Nat.lt_trichotomy s e with hlt | heq | hgt
      · rw [insert_occupied_lt hm hlt]
      · rw [insert_occupied_eq hm heq]
      · rw [insert_occupied_gt hm hgt]
  · rw [insert_not_inserted_eq h]

/-! ## Preservation of the invariant -/

lemma wf_new (T : Type) {N : Nat} (hN : 0 < N) : WF N (new T N) := by
  refine ⟨hN, by simp [new], by simp [new], ?_⟩
  intro j e x h
  simp only [new] at h
  rw [getD_replicate] at h
  exact Option.noConfusion h

lemma wf_reset {N : Nat} {b : OrderedBuffer T} (h : WF N b) : WF N b.reset := by
  obtain ⟨hN, hlen, _, _⟩ := h
  refine ⟨hN, by simp [reset, hlen], by simp [reset], ?_⟩
  intro j e x hx
  simp only [reset] at hx
  rw [getD_replicate] at hx
  exact Option.noConfusion hx

lemma wf_insert {N : Nat} {b : OrderedBuffer T} (h : WF N b) (s : Nat) (it : T) :
    WF N (b.insert s it).2 := by
  obtain ⟨hN, hlen, hrp, hslots⟩ := h
  rcases hm : b.items.getD (s % b.items.length) none with _ | ⟨e, x⟩
  · by_cases h1 : b.next_sequence_number + b.items.length ≤ s
    · rw [insert_empty_full hm h1]
      exact ⟨hN, hlen, hrp, hslots⟩
    · by_cases h2 : s < b.next_sequence_number
      · rw [insert_empty_dup hm (by omega) h2]
        exact ⟨hN, hlen, hrp, hslots⟩
      · rw [insert_empty_store hm (by omega) (by omega)]
        dsimp only
        have hslot_lt : s % b.items.length < b.items.length :=
          Nat.mod_lt _ (by omega)
        refine ⟨hN, by simpa using hlen, hrp, ?_⟩
        intro j e' x' hx
        simp only at hx
        by_cases hj : s % b.items.length = j
        · subst hj
          rw [getD_set_self hslot_lt] at hx
          obtain ⟨rfl, rfl⟩ : s = e' ∧ it = x' := by
            have := Option.some.inj hx
            exact ⟨congrArg Prod.fst this, congrArg Prod.snd this⟩
          rw [hlen]
          exact ⟨rfl, by dsimp only; omega, by dsimp only; omega⟩
        · rw [getD_set_ne _ hj] at hx
          exact hslots j e' x' hx
  · rcases Nat.lt_trichotomy s e with hlt | heq | hgt
    · rw [insert_occupied_lt hm hlt]
      exact ⟨hN, hlen, hrp, hslots⟩
    · rw [insert_occupied_eq hm heq]
      exact ⟨hN, hlen, hrp, hslots⟩
    · rw [insert_occupied_gt hm hgt]
      exact ⟨hN, hlen, hrp, hslots⟩

/-- Under the invariant, the item at `read_pos` (when occupied) stores exactly
`next_sequence_number`. -/
lemma seq_at_read_pos {N : Nat} {b : OrderedBuffer T} (h : WF N b) {e : Nat}
    {x : T} (hm : b.items.getD b.read_pos none = some (e, x)) :
    e = b.next_sequence_number := by
  obtain ⟨hN, hlen, hrp, hslots⟩ := h
  obtain ⟨h1, h2, h3⟩ := hslots _ _ _ hm
  have hmod : e % N = b.next_sequence_number % N := by rw [h1, hrp]
  have hdvd : N ∣ e - b.next_sequence_number :=
    (Nat.modEq_iff_dvd' h2).1 hmod.symm
  have : e - b.next_sequence_number = 0 :=
    Nat.eq_zero_of_dvd_of_lt hdvd (by omega)
  omega

lemma wf_next {N : Nat} {b : OrderedBuffer T} (h : WF N b) : WF N (b.next).2 := by
  rcases hm : b.items.getD b.read_pos none with _ | ⟨e, x⟩
  · rw [next_empty hm]
    exact h
  · have heq : e = b.next_sequence_number := seq_at_read_pos h hm
    obtain ⟨hN, hlen, hrp, hslots⟩ := h
    have hj : b.read_pos < b.items.length := lt_length_of_getD_some hm
    rw [next_occupied hm]
    dsimp only
    refine ⟨hN, by simpa using hlen, ?_, ?_⟩
    · show (b.read_pos + 1) % b.items.length = (e + 1) % N
      rw [hlen, heq, hrp]
      exact Nat.ModEq.add_right 1 (Nat.mod_modEq _ _)
    · intro j e' x' hx
      simp only at hx
      by_cases hjj : b.read_pos = j
      · subst hjj
        rw [getD_set_self hj] at hx
        exact Option.noConfusion hx
      · rw [getD_set_ne _ hjj] at hx
        obtain ⟨h1', h2', h3'⟩ := hslots j e' x' hx
        refine ⟨h1', ?_, by dsimp only; omega⟩
        have hne : e' ≠ b.next_sequence_number := by
          intro hcc
          exact hjj (by rw [hrp, ← hcc, h1'])
        dsimp only
        omega

end OrderedBuffer

open OrderedBuffer in
lemma wf_fapply {N : Nat} {b : OrderedBuffer T} (h : WF N b) (op : FOp T) :
    WF N (fapply b op) := by
  cases op with
  | ins s item => exact wf_insert h s item
  | step => exact wf_next h
  | reset => exact wf_reset h

lemma wf_foldl_fapply {N : Nat} :
    ∀ (l : List (FOp T)) (b : OrderedBuffer T), OrderedBuffer.WF N b →
      OrderedBuffer.WF N (l.foldl fapply b)
  | [], _, h => h
  | op :: l, b, h => wf_foldl_fapply l _ (wf_fapply h op)

lemma reachable_wf {N : Nat} {b : OrderedBuffer T} (hN : 0 < N)
    (h : Reachable T N b) : OrderedBuffer.WF N b := by
  obtain ⟨l, hl⟩ := h
  subst hl
  exact wf_foldl_fapply l _ (OrderedBuffer.wf_new T hN)

namespace OrderedBuffer

/-! ## Drain: termination and fuel stability -/

lemma drainAux_succ_empty {b : OrderedBuffer T}
    (hm : b.items.getD b.read_pos none = none) (fuel : Nat) :
    drainAux (fuel + 1) b = ([], b) := by
  simp only [drainAux, next_empty hm]

lemma drainAux_succ_occupied {b : OrderedBuffer T} {e : Nat} {x : T}
    (hm : b.items.getD b.read_pos none = some (e, x)) (fuel : Nat) :
    drainAux (fuel + 1) b =
      ((e, x) :: (drainAux fuel (b.next).2).1, (drainAux fuel (b.next).2).2) := by
  simp only [drainAux, next_occupied hm]

lemma drainAux_length_le : ∀ (fuel : Nat) (b : OrderedBuffer T),
    (drainAux fuel b).1.length ≤ fuel
  | 0, _ => Nat.le_refl _
  | fuel + 1, b => by
      rcases hm : b.items.getD b.read_pos none with _ | ⟨e, x⟩
      · rw [drainAux_succ_empty hm]
        simp
      · rw [drainAux_succ_occupied hm]
        simpa using drainAux_length_le fuel (b.next).2

/-- With fuel at least the number of occupied slots, the drain reaches an
empty slot at `read_pos` and extra fuel changes nothing. -/
lemma drainAux_of_occupied_le : ∀ (fuel : Nat) (b : OrderedBuffer T),
    b.occupied ≤ fuel →
      atRest (drainAux fuel b).2 ∧ ∀ m, drainAux (fuel + m) b = drainAux fuel b
  | 0, b, h => by
      have hz : b.occupied = 0 := Nat.le_zero.1 h
      have hm : b.items.getD b.read_pos none = none :=
        getD_eq_none_of_occupied_zero hz _
      constructor
      · exact hm
      · intro m
        cases m with
        | zero => rfl
        | succ m =>
            rw [Nat.zero_add, drainAux_succ_empty hm]
            rfl
  | fuel + 1, b, h => by
      rcases hm : b.items.getD b.read_pos none with _ | ⟨e, x⟩
      · rw [drainAux_succ_empty hm]
        refine ⟨hm, fun m => ?_⟩
        have heq : fuel + 1 + m = (fuel + m) + 1 := by omega
        rw [heq, drainAux_succ_empty hm]
      · have hocc : (b.next).2.occupied ≤ fuel := by
          have := occupied_next hm
          omega
        obtain ⟨hrest, hstab⟩ := drainAux_of_occupied_le fuel (b.next).2 hocc
        rw [drainAux_succ_occupied hm]
        refine ⟨hrest, fun m => ?_⟩
        have heq : fuel + 1 + m = (fuel + m) + 1 := by omega
        rw [heq, drainAux_succ_occupied hm, hstab m]

lemma drain_length_le (b : OrderedBuffer T) :
    (drain b).1.length ≤ b.items.length :=
  drainAux_length_le _ b

lemma drain_atRest (b : OrderedBuffer T) : atRest (drain b).2 :=
  (drainAux_of_occupied_le _ b (occupied_le_length b)).1

lemma drain_fuel_stable (b : OrderedBuffer T) (m : Nat) :
    drainAux (b.items.length + m) b = drain b :=
  (drainAux_of_occupied_le _ b (occupied_le_length b)).2 m

/-- Taking one iterator step first and then exhausting the iterator lands in
the same final buffer state as exhausting it directly. -/
lemma drain_next (b : OrderedBuffer T) : (drain ((b.next).2)).2 = (drain b).2 := by
  rcases hm : b.items.getD b.read_pos none with _ | ⟨e, x⟩
  · rw [next_empty hm]
  · have hj : b.read_pos < b.items.length := lt_length_of_getD_some hm
    have hlen1 : b.items.length = (b.items.length - 1) + 1 := by omega
    have hocc : (b.next).2.occupied ≤ b.items.length - 1 := by
      have h1 := occupied_next hm
      have h2 := occupied_le_length b
      omega
    have hstab := (drainAux_of_occupied_le (b.items.length - 1) (b.next).2 hocc).2 1
    have hd : drain b
        = ((e, x) :: (drainAux (b.items.length - 1) (b.next).2).1,
            (drainAux (b.items.length - 1) (b.next).2).2) := by
      rw [drain]
      conv_lhs => rw [hlen1]
      exact drainAux_succ_occupied hm _
    rw [hd, drain, length_next]
    conv_lhs => rw [hlen1]
    rw [show b.items.length - 1 + 1 = (b.items.length - 1) + 1 from rfl, hstab]

lemma drain_stepIter : ∀ (k : Nat) (b : OrderedBuffer T),
    (drain (stepIter k b)).2 = (drain b).2
  | 0, _ => rfl
  | k + 1, b => by
      show (drain (stepIter k (b.next).2)).2 = (drain b).2
      rw [drain_stepIter k (b.next).2, drain_next]

/-! ## Drain under the invariant: it delivers exactly the contiguous run -/

/-- One iterator step neither loses nor invents sequence numbers: the set of
sequence numbers that are delivered-or-stored is unchanged. -/
lemma hasSeq_next_iff {N : Nat} {b : OrderedBuffer T} (h : WF N b) {e : Nat}
    {x : T} (hm : b.items.getD b.read_pos none = some (e, x)) (t : Nat) :
    (t < (b.next).2.next_sequence_number ∨ hasSeq (b.next).2 t)
      ↔ (t < b.next_sequence_number ∨ hasSeq b t) := by
  have heq : e = b.next_sequence_number := seq_at_read_pos h hm
  have hj : b.read_pos < b.items.length := lt_length_of_getD_some hm
  rw [next_occupied hm]
  dsimp only
  constructor
  · rintro (hlt | ⟨j, y, hjy⟩)
    · rcases Nat.lt_or_ge t e with h' | h'
      · left; omega
      · have ht : t = e := by omega
        subst ht
        right; exact ⟨b.read_pos, x, hm⟩
    · dsimp only [hasSeq] at hjy
      by_cases hjj : b.read_pos = j
      · subst hjj
        rw [getD_set_self hj] at hjy
        exact Option.noConfusion hjy
      · right; exact ⟨j, y, by rwa [getD_set_ne _ hjj] at hjy⟩
  · rintro (hlt | ⟨j, y, hjy⟩)
    · left; omega
    · by_cases hjj : b.read_pos = j
      · subst hjj
        have h2 := Option.some.inj (hm.symm.trans hjy)
        have h3 : e = t := congrArg Prod.fst h2
        left; omega
      · right
        exact ⟨j, y, by dsimp only [hasSeq]; rw [getD_set_ne _ hjj]; exact hjy⟩

/-- Storing a fresh item adds exactly its sequence number to the stored set. -/
lemma hasSeq_store {b : OrderedBuffer T} {s : Nat} {it : T}
    (hm : b.items.getD (s % b.items.length) none = none)
    (hlt : s % b.items.length < b.items.length) (t : Nat) :
    hasSeq { b with items := b.items.set (s % b.items.length) (some (s, it)) } t
      ↔ (hasSeq b t ∨ t = s) := by
  constructor
  · rintro ⟨j, y, hjy⟩
    dsimp only at hjy
    by_cases hjj : s % b.items.length = j
    · subst hjj
      rw [getD_set_self hlt] at hjy
      have h2 := Option.some.inj hjy
      right
      exact (congrArg Prod.fst h2).symm
    · rw [getD_set_ne _ hjj] at hjy
      left; exact ⟨j, y, hjy⟩
  · rintro (⟨j, y, hjy⟩ | heqt)
    · refine ⟨j, y, ?_⟩
      dsimp only
      have hjj : s % b.items.length ≠ j := by
        intro hcc
        rw [hcc] at hm
        rw [hm] at hjy
        exact Option.noConfusion hjy
      rw [getD_set_ne _ hjj]
      exact hjy
    · exact ⟨s % b.items.length, it, by
        dsimp only
        rw [getD_set_self hlt, heqt]⟩

/-- Master lemma for a fuelled drain from a well-formed state: it yields the
sequence numbers `next, next+1, ...` in order, preserves the invariant, ends
at rest, and neither loses nor invents delivered-or-stored sequence numbers. -/
lemma drainAux_spec {N : Nat} : ∀ (fuel : Nat) (b : OrderedBuffer T), WF N b →
    b.occupied ≤ fuel →
    (drainAux fuel b).1.map Prod.fst
        = List.range' b.next_sequence_number
            ((drainAux fuel b).2.next_sequence_number - b.next_sequence_number)
    ∧ b.next_sequence_number ≤ (drainAux fuel b).2.next_sequence_number
    ∧ WF N (drainAux fuel b).2
    ∧ ∀ t, (t < (drainAux fuel b).2.next_sequence_number
              ∨ hasSeq (drainAux fuel b).2 t)
        ↔ (t < b.next_sequence_number ∨ hasSeq b t)
  | 0, b, hwf, _ => by
      refine ⟨?_, Nat.le_refl _, hwf, fun t => Iff.rfl⟩
      simp [drainAux]
  | fuel + 1, b, hwf, hocc => by
      rcases hm : b.items.getD b.read_pos none with _ | ⟨e, x⟩
      · rw [drainAux_succ_empty hm]
        refine ⟨?_, Nat.le_refl _, hwf, fun t => Iff.rfl⟩
        simp
      · have heq : e = b.next_sequence_number := seq_at_read_pos hwf hm
        have hwf1 : WF N (b.next).2 := wf_next hwf
        have hocc1 : (b.next).2.occupied ≤ fuel := by
          have := occupied_next hm
          omega
        obtain ⟨ih1, ih2, ih3, ih4⟩ := drainAux_spec fuel (b.next).2 hwf1 hocc1
        have hnext : (b.next).2.next_sequence_number = e + 1 := by
          rw [next_occupied hm]
        rw [drainAux_succ_occupied hm]
        dsimp only
        refine ⟨?_, by omega, ih3, ?_⟩
        · rw [List.map_cons, ih1, hnext]
          have hK : e + 1 ≤ (drainAux fuel (b.next).2).2.next_sequence_number := by
            omega
          rw [← heq]
          have harith : (drainAux fuel (b.next).2).2.next_sequence_number - e
              = ((drainAux fuel (b.next).2).2.next_sequence_number - (e + 1)) + 1 := by
            omega
          rw [harith, List.range'_succ]
        · intro t
          exact (ih4 t).trans (hasSeq_next_iff hwf hm t)

/-- Running `drain` from a well-formed state: delivered sequence numbers are exactly
the contiguous run from `next_sequence_number` up to the final value. -/
lemma drain_spec {N : Nat} {b : OrderedBuffer T} (hwf : WF N b) :
    (drain b).1.map Prod.fst
        = List.range' b.next_sequence_number
            ((drain b).2.next_sequence_number - b.next_sequence_number)
    ∧ b.next_sequence_number ≤ (drain b).2.next_sequence_number
    ∧ WF N (drain b).2
    ∧ ∀ t, (t < (drain b).2.next_sequence_number ∨ hasSeq (drain b).2 t)
        ↔ (t < b.next_sequence_number ∨ hasSeq b t) :=
  drainAux_spec _ b hwf (occupied_le_length b)

/-- A fresh buffer stores nothing. -/
lemma hasSeq_new_false (T : Type) (N t : Nat) : ¬ hasSeq (new T N) t := by
  rintro ⟨j, y, hj⟩
  rw [show (new T N).items = List.replicate N none from rfl, getD_replicate] at hj
  exact Option.noConfusion hj

/-- A fresh buffer is at rest. -/
lemma atRest_new (T : Type) (N : Nat) : atRest (new T N) :=
  getD_replicate N 0

lemma wf_stepIter {N : Nat} : ∀ (k : Nat) {b : OrderedBuffer T}, WF N b →
    WF N (stepIter k b)
  | 0, _, h => h
  | k + 1, b, h => wf_stepIter k (wf_next h)

lemma stepIter_atRest : ∀ (k : Nat) {b : OrderedBuffer T}, atRest b →
    stepIter k b = b
  | 0, _, _ => rfl
  | k + 1, b, h => by
      show stepIter k (b.next).2 = b
      rw [next_empty h]
      exact stepIter_atRest k h

/-- The exhaustion state of the drain is reached by `fuel` bare iterator
steps (steps past the first empty slot are no-ops). -/
lemma drainAux_state_eq_stepIter : ∀ (fuel : Nat) (b : OrderedBuffer T),
    (drainAux fuel b).2 = stepIter fuel b
  | 0, _ => rfl
  | fuel + 1, b => by
      rcases hm : b.items.getD b.read_pos none with _ | ⟨e, x⟩
      · rw [drainAux_succ_empty hm]
        show b = stepIter fuel (b.next).2
        rw [next_empty hm]
        exact (stepIter_atRest fuel hm).symm
      · rw [drainAux_succ_occupied hm]
        show (drainAux fuel (b.next).2).2 = stepIter fuel (b.next).2
        exact drainAux_state_eq_stepIter fuel (b.next).2

lemma drain_state_eq_stepIter (b : OrderedBuffer T) :
    (drain b).2 = stepIter b.items.length b :=
  drainAux_state_eq_stepIter b.items.length b

/-- Inversion of a successful insert: the slot was empty, the sequence number
was inside the window, and the new state stores it there. -/
lemma insert_inserted_inv {b : OrderedBuffer T} {s : Nat} {it : T}
    {b1 : OrderedBuffer T} (hr : b.insert s it = (InsertResult.Inserted, b1)) :
    b.items.getD (s % b.items.length) none = none
    ∧ b.next_sequence_number ≤ s
    ∧ s < b.next_sequence_number + b.items.length
    ∧ b1 = { b with items := b.items.set (s % b.items.length) (some (s, it)) } := by
  rcases hm : b.items.getD (s % b.items.length) none with _ | ⟨e, x⟩
  · by_cases h1 : b.next_sequence_number + b.items.length ≤ s
    · rw [insert_empty_full hm h1] at hr
      exact InsertResult.noConfusion (congrArg Prod.fst hr)
    · by_cases h2 : s < b.next_sequence_number
      · rw [insert_empty_dup hm (by omega) h2] at hr
        exact InsertResult.noConfusion (congrArg Prod.fst hr)
      · rw [insert_empty_store hm (by omega) (by omega)] at hr
        exact ⟨by simp [hm], by omega, by omega, (congrArg Prod.snd hr).symm⟩
  · rcases Nat.lt_trichotomy s e with hlt | heqq | hgt
    · rw [insert_occupied_lt hm hlt] at hr
      exact InsertResult.noConfusion (congrArg Prod.fst hr)
    · rw [insert_occupied_eq hm heqq] at hr
      exact InsertResult.noConfusion (congrArg Prod.fst hr)
    · rw [insert_occupied_gt hm hgt] at hr
      exact InsertResult.noConfusion (congrArg Prod.fst hr)

end OrderedBuffer

namespace RunLemmas

open OrderedBuffer

lemma runStep_inserted {T : Type} {b b1 : OrderedBuffer T} {p : Nat × T}
    (hr : b.insert p.1 p.2 = (InsertResult.Inserted, b1))
    (out : List (Nat × T)) (S : List Nat) :
    runStep (b, out, S) p = ((drain b1).2, out ++ (drain b1).1, S ++ [p.1]) := by
  simp only [runStep, hr]

lemma runStep_rejected {T : Type} {b b1 : OrderedBuffer T} {p : Nat × T}
    {r : InsertResult} (hr : b.insert p.1 p.2 = (r, b1))
    (hne : r ≠ InsertResult.Inserted) (out : List (Nat × T)) (S : List Nat) :
    runStep (b, out, S) p = (b, out, S) := by
  have hb1 : b1 = b := by
    have h2 := @insert_not_inserted_eq T b p.1 p.2 (by rw [hr]; exact hne)
    rw [hr] at h2
    exact h2
  cases r with
  | Inserted => exact absurd rfl hne
  | Expired => simp only [runStep, hr, hb1]
  | Duplicate => simp only [runStep, hr, hb1]
  | FullBuffer => simp only [runStep, hr, hb1]

lemma foldl_runStep_acc {T : Type} : ∀ (l : List (Nat × T))
    (b : OrderedBuffer T) (out : List (Nat × T)) (S : List Nat),
    l.foldl runStep (b, out, S)
      = ((runFrom b l).1, out ++ (runFrom b l).2.1, S ++ (runFrom b l).2.2)
  | [], b, out, S => by simp [runFrom]
  | p :: l, b, out, S => by
      rcases hr : b.insert p.1 p.2 with ⟨r, b1⟩
      by_cases hin : r = InsertResult.Inserted
      · subst hin
        show List.foldl runStep (runStep (b, out, S) p) l = _
        rw [runStep_inserted hr]
        rw [foldl_runStep_acc l (drain b1).2 (out ++ (drain b1).1) (S ++ [p.1])]
        have hR : runFrom b (p :: l)
            = ((runFrom (drain b1).2 l).1,
                (drain b1).1 ++ (runFrom (drain b1).2 l).2.1,
                [p.1] ++ (runFrom (drain b1).2 l).2.2) := by
          show List.foldl runStep (runStep (b, [], []) p) l = _
          rw [runStep_inserted hr, List.nil_append, List.nil_append]
          rw [foldl_runStep_acc l (drain b1).2 (drain b1).1 [p.1]]
        rw [hR]
        simp [List.append_assoc]
      · show List.foldl runStep (runStep (b, out, S) p) l = _
        rw [runStep_rejected hr hin]
        rw [foldl_runStep_acc l b out S]
        have hR : runFrom b (p :: l) = runFrom b l := by
          show List.foldl runStep (runStep (b, [], []) p) l = _
          rw [runStep_rejected hr hin]
          rfl
        rw [hR]

lemma runFrom_cons_inserted {T : Type} {b b1 : OrderedBuffer T} {p : Nat × T}
    (hr : b.insert p.1 p.2 = (InsertResult.Inserted, b1)) (l : List (Nat × T)) :
    runFrom b (p :: l)
      = ((runFrom (drain b1).2 l).1,
          (drain b1).1 ++ (runFrom (drain b1).2 l).2.1,
          p.1 :: (runFrom (drain b1).2 l).2.2) := by
  show List.foldl runStep (runStep (b, [], []) p) l = _
  rw [runStep_inserted hr, List.nil_append, List.nil_append]
  rw [foldl_runStep_acc l (drain b1).2 (drain b1).1 [p.1]]
  simp

lemma runFrom_cons_rejected {T : Type} {b b1 : OrderedBuffer T} {p : Nat × T}
    {r : InsertResult} (hr : b.insert p.1 p.2 = (r, b1))
    (hne : r ≠ InsertResult.Inserted) (l : List (Nat × T)) :
    runFrom b (p :: l) = runFrom b l := by
  show List.foldl runStep (runStep (b, [], []) p) l = runFrom b l
  rw [runStep_rejected hr hne]
  rfl

set_option maxHeartbeats 1600000 in
/-- Master lemma for a boundary-level workload run from a well-formed at-rest
state: the drained items carry exactly the consecutive sequence numbers from
the initial `next_sequence_number` to the final one, the invariant and rest
state are preserved, and a sequence number is delivered-or-stored at the end
iff it was so at the start or its insert succeeded during the run. -/
lemma runFrom_spec {T : Type} {N : Nat} : ∀ (l : List (Nat × T))
    (b : OrderedBuffer T), WF N b → atRest b →
    (runFrom b l).2.1.map Prod.fst
        = List.range' b.next_sequence_number
            ((runFrom b l).1.next_sequence_number - b.next_sequence_number)
    ∧ b.next_sequence_number ≤ (runFrom b l).1.next_sequence_number
    ∧ WF N (runFrom b l).1
    ∧ atRest (runFrom b l).1
    ∧ ∀ t, (t < (runFrom b l).1.next_sequence_number ∨ hasSeq (runFrom b l).1 t)
        ↔ (t < b.next_sequence_number ∨ hasSeq b t ∨ t ∈ (runFrom b l).2.2)
  | [], b, hwf, hrest => by
      refine ⟨by simp [runFrom], Nat.le_refl _, hwf, hrest, fun t => ?_⟩
      show _ ↔ (t < b.next_sequence_number ∨ hasSeq b t ∨ t ∈ ([] : List Nat))
      simp [runFrom]
  | p :: l, b, hwf, hrest => by
      rcases hr : b.insert p.1 p.2 with ⟨r, b1⟩
      by_cases hin : r = InsertResult.Inserted
      · subst hin
        obtain ⟨hm, hge, hlt, hb1⟩ := insert_inserted_inv hr
        have hN0 : 0 < b.items.length := by
          obtain ⟨hN, hlen, _, _⟩ := hwf
          omega
        have hslot : p.1 % b.items.length < b.items.length := Nat.mod_lt _ hN0
        have hwf1 : WF N b1 := by
          have h2 := wf_insert hwf p.1 p.2
          rw [hr] at h2
          exact h2
        have hb1next : b1.next_sequence_number = b.next_sequence_number := by
          rw [hb1]
        have hb1seq : ∀ t, hasSeq b1 t ↔ (hasSeq b t ∨ t = p.1) := by
          rw [hb1]
          exact hasSeq_store hm hslot
        obtain ⟨hd1, hd2, hd3, hd4⟩ := drain_spec hwf1
        obtain ⟨ih1, ih2, ih3, ih4, ih5⟩ :=
          runFrom_spec l (drain b1).2 hd3 (drain_atRest b1)
        rw [runFrom_cons_inserted hr l]
        dsimp only
        refine ⟨?_, by omega, ih3, ih4, fun t => ?_⟩
        · rw [List.map_append, hd1, ih1, hb1next]
          have harith := List.range'_append b.next_sequence_number
            ((drain b1).2.next_sequence_number - b.next_sequence_number)
            ((runFrom (drain b1).2 l).1.next_sequence_number
              - (drain b1).2.next_sequence_number) 1
          rw [one_mul] at harith
          have e1 : b.next_sequence_number
              + ((drain b1).2.next_sequence_number - b.next_sequence_number)
              = (drain b1).2.next_sequence_number := by omega
          have e2 : ((runFrom (drain b1).2 l).1.next_sequence_number
                - (drain b1).2.next_sequence_number)
              + ((drain b1).2.next_sequence_number - b.next_sequence_number)
              = (runFrom (drain b1).2 l).1.next_sequence_number
                  - b.next_sequence_number := by omega
          rw [e1, e2] at harith
          exact harith
        · have h4 := hd4 t
          have h5 := ih5 t
          have h6 := hb1seq t
          rw [hb1next] at h4
          rw [List.mem_cons]
          tauto
      · rw [runFrom_cons_rejected hr hin l]
        exact runFrom_spec l b hwf hrest

end RunLemmas

/-! ## Claim theorems -/

open OrderedBuffer

/-- C1: in any reachable state of a capacity-`N` buffer (`N > 0`), `insert`
classifies as follows. If the target slot `s % N` is occupied by sequence
number `e`: `Expired` when `s < e`, `Duplicate` when `s = e`, `FullBuffer`
when `s > e`. If it is empty: `FullBuffer` when `s ≥ next_sequence_number +
N`, `Duplicate` when `s < next_sequence_number`, and otherwise `(s, item)`
is stored in that slot and the call returns `Inserted`. -/
theorem insert_classification {T : Type} {N : Nat} {b : OrderedBuffer T}
    (hN : 0 < N) (hb : Reachable T N b) (s : Nat) (item : T) :
    (∀ e x, b.items.getD (s % N) none = some (e, x) →
      (s < e → (b.insert s item).1 = InsertResult.Expired)
      ∧ (s = e → (b.insert s item).1 = InsertResult.Duplicate)
      ∧ (e < s → (b.insert s item).1 = InsertResult.FullBuffer))
    ∧ (b.items.getD (s % N) none = none →
      (b.next_sequence_number + N ≤ s →
        (b.insert s item).1 = InsertResult.FullBuffer)
      ∧ (s < b.next_sequence_number →
        (b.insert s item).1 = InsertResult.Duplicate)
      ∧ (b.next_sequence_number ≤ s → s < b.next_sequence_number + N →
          (b.insert s item).1 = InsertResult.Inserted
          ∧ (b.insert s item).2.items.getD (s % N) none = some (s, item))) := by
  obtain ⟨-, hlen, -, -⟩ := reachable_wf hN hb
  subst hlen
  constructor
  · intro e x hm
    refine ⟨fun h => ?_, fun h => ?_, fun h => ?_⟩
    · rw [insert_occupied_lt hm h]
    · rw [insert_occupied_eq hm h]
    · rw [insert_occupied_gt hm h]
  · intro hm
    refine ⟨fun h => ?_, fun h => ?_, fun h1 h2 => ?_⟩
    · rw [insert_empty_full hm h]
    · by_cases hfull : b.next_sequence_number + b.items.length ≤ s
      · omega
      · rw [insert_empty_dup hm (by omega) h]
    · rw [insert_empty_store hm h2 h1]
      refine ⟨rfl, ?_⟩
      dsimp only
      exact getD_set_self (Nat.mod_lt _ (by omega)) _

/-- Witness for C1: in a fresh capacity-5 buffer, inserting sequence number 2
into its empty slot stores it and returns `Inserted`. -/
theorem insert_classification_witness :
    ((new Unit 5).insert 2 ()).1 = InsertResult.Inserted
    ∧ ((new Unit 5).insert 2 ()).2.items.getD (2 % 5) none = some (2, ()) := by
  have h := insert_classification (T := Unit) (N := 5) (b := new Unit 5)
    (by decide) ⟨[], rfl⟩ 2 ()
  exact (h.2 (by decide)).2.2 (by decide) (by decide)

/-- C7: whenever `insert` rejects (returns anything other than `Inserted`),
the buffer state is exactly unchanged, so the supplied item is not
retained. -/
theorem reject_no_side_effect {T : Type} (b : OrderedBuffer T) (s : Nat)
    (it : T) (h : (b.insert s it).1 ≠ InsertResult.Inserted) :
    (b.insert s it).2 = b :=
  insert_not_inserted_eq h

/-- Witness for C7: inserting the out-of-window sequence number 7 into a
fresh capacity-5 buffer is rejected and leaves the buffer unchanged. -/
theorem reject_no_side_effect_witness :
    ((new Unit 5).insert 7 ()).1 ≠ InsertResult.Inserted
    ∧ ((new Unit 5).insert 7 ()).2 = new Unit 5 :=
  ⟨by decide, reject_no_side_effect (new Unit 5) 7 () (by decide)⟩

/-- C8: the invariant — every occupied slot `j` stores a sequence number `e`
with `e % N = j` inside the window `[next_sequence_number,
next_sequence_number + N)`, and `read_pos = next_sequence_number % N` —
holds for a fresh buffer and is preserved by `insert`, by every single drain
step, and by `reset`. -/
theorem invariant_preserved (T : Type) (N : Nat) (hN : 0 < N) :
    WF N (new T N)
    ∧ (∀ (b : OrderedBuffer T) (s : Nat) (it : T), WF N b →
        WF N (b.insert s it).2)
    ∧ (∀ b : OrderedBuffer T, WF N b → WF N (b.next).2)
    ∧ (∀ b : OrderedBuffer T, WF N b → WF N b.reset) :=
  ⟨wf_new T hN, fun _ s it h => wf_insert h s it, fun _ h => wf_next h,
    fun _ h => wf_reset h⟩

/-- Witness for C8: the invariant holds for a fresh capacity-1 buffer. -/
theorem invariant_preserved_witness : WF 1 (new Unit 1) :=
  (invariant_preserved Unit 1 (by decide)).1

/-- C9: construction aborts exactly when the capacity is 0; for positive
capacity, in every reachable state both indexing sites of the code stay in
bounds (the insert slot `s % N` and `read_pos`), so no operation panics. -/
theorem construction_and_indexing_safe (T : Type) (N : Nat) (hN : 0 < N) :
    (∀ n : Nat, assert_buffer_size n = false ↔ n = 0)
    ∧ ∀ b : OrderedBuffer T, Reachable T N b →
        (∀ s : Nat, s % N < b.items.length) ∧ b.read_pos < b.items.length := by
  refine ⟨fun n => ?_, fun b hb => ?_⟩
  · cases n with
    | zero => simp [assert_buffer_size]
    | succ n => simp [assert_buffer_size]
  · obtain ⟨-, hlen, hrp, -⟩ := reachable_wf hN hb
    refine ⟨fun s => ?_, ?_⟩
    · rw [hlen]
      exact Nat.mod_lt _ hN
    · rw [hlen, hrp]
      exact Nat.mod_lt _ hN

/-- Witness for C9: capacity 0 fails the construction assertion, and in the
fresh capacity-5 buffer `read_pos` is in bounds. -/
theorem construction_and_indexing_safe_witness :
    (assert_buffer_size 0 = false ↔ 0 = 0)
    ∧ (new Unit 5).read_pos < (new Unit 5).items.length :=
  ⟨(construction_and_indexing_safe Unit 5 (by decide)).1 0,
    ((construction_and_indexing_safe Unit 5 (by decide)).2 _ ⟨[], rfl⟩).2⟩

/-- C2: across a buffer's entire lifetime (a workload of inserts, each
followed by the drain its returned iterator forces), the sequence numbers of
all drained items, concatenated in order, are exactly `0, 1, ...,
K-1` where `K` is the final `next_sequence_number` — strictly increasing,
gap-free, each exactly once — and `K` is the first sequence number whose
insert never returned `Inserted`: every `s < K` was successfully inserted
and `K` itself never was. -/
theorem drain_lifetime_order {T : Type} (N : Nat) (hN : 0 < N)
    (l : List (Nat × T)) :
    (run T N l).2.1.map Prod.fst
        = List.range (run T N l).1.next_sequence_number
    ∧ (∀ s, s < (run T N l).1.next_sequence_number → s ∈ (run T N l).2.2)
    ∧ (run T N l).1.next_sequence_number ∉ (run T N l).2.2 := by
  obtain ⟨h1, h2, h3, h4, h5⟩ :=
    RunLemmas.runFrom_spec l (new T N) (wf_new T hN) (atRest_new T N)
  have hz : (new T N).next_sequence_number = 0 := rfl
  rw [hz] at h1 h5
  have hre : run T N l = runFrom (new T N) l := rfl
  rw [hre]
  refine ⟨?_, fun s hs => ?_, fun hmem => ?_⟩
  · rw [h1, Nat.sub_zero]
    exact (List.range_eq_range' _).symm
  · have h6 := (h5 s).1 (Or.inl hs)
    rcases h6 with h' | h' | h'
    · omega
    · exact absurd h' (hasSeq_new_false T N s)
    · exact h'
  · have h6 := (h5 _).2 (Or.inr (Or.inr hmem))
    rcases h6 with h' | h'
    · omega
    · obtain ⟨j, y, hj⟩ := h'
      obtain ⟨-, hlen, hrp, hslots⟩ := h3
      obtain ⟨hj1, hj2, hj3⟩ := hslots _ _ _ hj
      have hjrp : j = (runFrom (new T N) l).1.read_pos := by rw [hrp, ← hj1]
      rw [hjrp, h4] at hj
      exact Option.noConfusion hj

/-- Witness for C2: the spec's own scenario — inserting 0, 1, 3, 2 into a
capacity-5 buffer delivers exactly the sequence numbers 0..3 in order. -/
theorem drain_lifetime_order_witness :
    (run Unit 5 [(0, ()), (1, ()), (3, ()), (2, ())]).2.1.map Prod.fst
      = List.range
          (run Unit 5 [(0, ()), (1, ()), (3, ()), (2, ())]).1.next_sequence_number :=
  (drain_lifetime_order 5 (by decide) [(0, ()), (1, ()), (3, ()), (2, ())]).1

/-- C3 is refuted: a sequence of inserts (each with its forced drain) does
reach a state in which `insert` returns `Expired`. After inserting 0,1,2,3
(each drained) and then 8 into a capacity-5 buffer, the window is `[4, 9)`
and slot 3 holds sequence number 8; inserting 3 then returns `Expired`. -/
theorem expired_reachable_cex :
    ((run Unit 5 [(0, ()), (1, ()), (2, ()), (3, ()), (8, ())]).1.insert 3 ()).1
      = InsertResult.Expired := by decide

/-- C3 (amended): `Expired` is reachable, but only for stale arrivals: in
any reachable state, whenever `insert` returns `Expired` the sequence number
is below `next_sequence_number`, i.e. it had already been delivered (as with
`Duplicate`). -/
theorem expired_only_for_delivered {T : Type} {N : Nat} {b : OrderedBuffer T}
    (hN : 0 < N) (hb : Reachable T N b) (s : Nat) (it : T)
    (h : (b.insert s it).1 = InsertResult.Expired) :
    s < b.next_sequence_number := by
  obtain ⟨-, hlen, hrp, hslots⟩ := reachable_wf hN hb
  rcases hm : b.items.getD (s % b.items.length) none with _ | ⟨e, x⟩
  · by_cases h1 : b.next_sequence_number + b.items.length ≤ s
    · rw [insert_empty_full hm h1] at h
      exact InsertResult.noConfusion h
    · by_cases h2 : s < b.next_sequence_number
      · exact h2
      · rw [insert_empty_store hm (by omega) (by omega)] at h
        exact InsertResult.noConfusion h
  · rcases Nat.lt_trichotomy s e with hlt | heqq | hgt
    · obtain ⟨he1, he2, he3⟩ := hslots _ _ _ hm
      have hmodeq : s % N = e % N := by rw [he1, hlen]
      have hdvd : N ∣ e - s := (Nat.modEq_iff_dvd' (Nat.le_of_lt hlt)).1 hmodeq
      have hNle : N ≤ e - s := Nat.le_of_dvd (by omega) hdvd
      omega
    · rw [insert_occupied_eq hm heqq] at h
      exact InsertResult.noConfusion h
    · rw [insert_occupied_gt hm hgt] at h
      exact InsertResult.noConfusion h

/-- Witness for C3 (amended): in the reachable capacity-5 state with window
`[4, 9)` and slot 3 holding 8, inserting 3 returns `Expired`, and indeed
`3 < 4`. -/
theorem expired_only_for_delivered_witness :
    3 < (run Unit 5
          [(0, ()), (1, ()), (2, ()), (3, ()), (8, ())]).1.next_sequence_number :=
  expired_only_for_delivered (N := 5) (by decide)
    ⟨[FOp.ins 0 (), FOp.step, FOp.ins 1 (), FOp.step, FOp.ins 2 (), FOp.step,
        FOp.ins 3 (), FOp.step, FOp.ins 8 (), FOp.step], by decide⟩
    3 () (by decide)

/-- C4 is refuted in its second half: in the reachable capacity-5 state with
`next_sequence_number = 4` and slot 3 holding sequence number 8 (reached by
inserting 0,1,2,3 — each drained — and then 8), `insert(k - 1) =
insert(3)` returns `Expired`, not `Duplicate`. -/
theorem capacity_law_cex :
    (run Unit 5 [(0, ()), (1, ()), (2, ()), (3, ()), (8, ())]).1.next_sequence_number
        = 4
    ∧ ((run Unit 5 [(0, ()), (1, ()), (2, ()), (3, ()), (8, ())]).1.insert
          (4 - 1) ()).1 ≠ InsertResult.Duplicate := by decide

/-- C4 (amended): in any reachable state with `next_sequence_number = k`,
`insert(k + N)` always returns `FullBuffer`; and for `k > 0`,
`insert(k - 1)` is always rejected as already-delivered — `Duplicate` when
its slot is empty, `Expired` when the slot is occupied by a wrapped-ahead
arrival. -/
theorem capacity_law_amended {T : Type} {N : Nat} {b : OrderedBuffer T}
    (hN : 0 < N) (hb : Reachable T N b) (it : T) :
    (b.insert (b.next_sequence_number + N) it).1 = InsertResult.FullBuffer
    ∧ (0 < b.next_sequence_number →
        ((b.insert (b.next_sequence_number - 1) it).1 = InsertResult.Duplicate
          ∨ (b.insert (b.next_sequence_number - 1) it).1
              = InsertResult.Expired)) := by
  obtain ⟨-, hlen, hrp, hslots⟩ := reachable_wf hN hb
  constructor
  · rcases hm : b.items.getD
        ((b.next_sequence_number + N) % b.items.length) none with _ | ⟨e, x⟩
    · rw [insert_empty_full hm (by omega)]
    · obtain ⟨he1, he2, he3⟩ := hslots _ _ _ hm
      have he1' : e % N = b.next_sequence_number % N := by
        rw [he1, hlen, Nat.add_mod_right]
      have hdvd : N ∣ e - b.next_sequence_number :=
        (Nat.modEq_iff_dvd' he2).1 he1'.symm
      have hz : e - b.next_sequence_number = 0 :=
        Nat.eq_zero_of_dvd_of_lt hdvd (by omega)
      rw [insert_occupied_gt hm (by omega)]
  · intro hk
    rcases hm2 : b.items.getD
        ((b.next_sequence_number - 1) % b.items.length) none with _ | ⟨e, x⟩
    · left
      rw [insert_empty_dup hm2 (by omega) (by omega)]
    · right
      obtain ⟨he1, he2, he3⟩ := hslots _ _ _ hm2
      rw [insert_occupied_lt hm2 (by omega)]

/-- Witness for C4 (amended): in the reachable capacity-5 state with
`next_sequence_number = 1`, `insert(1 + 5)` returns `FullBuffer` and
`insert(0)` is rejected as already delivered. -/
theorem capacity_law_amended_witness :
    ((frun Unit 5 [FOp.ins 0 (), FOp.step]).insert
        ((frun Unit 5 [FOp.ins 0 (), FOp.step]).next_sequence_number + 5) ()).1
      = InsertResult.FullBuffer
    ∧ (((frun Unit 5 [FOp.ins 0 (), FOp.step]).insert
          ((frun Unit 5 [FOp.ins 0 (), FOp.step]).next_sequence_number - 1) ()).1
        = InsertResult.Duplicate
      ∨ ((frun Unit 5 [FOp.ins 0 (), FOp.step]).insert
          ((frun Unit 5 [FOp.ins 0 (), FOp.step]).next_sequence_number - 1) ()).1
        = InsertResult.Expired) :=
  ⟨(capacity_law_amended (by decide) ⟨[FOp.ins 0 (), FOp.step], rfl⟩ ()).1,
    (capacity_law_amended (by decide) ⟨[FOp.ins 0 (), FOp.step], rfl⟩ ()).2
      (by decide)⟩

/-- C5 is refuted: with sequence number 1 buffered and a drain started after
inserting 0, consuming `k = 1` item (the pair `(0, ())`) and then abandoning
the handle does NOT leave the buffer as if exactly one item had been
delivered. The not-yet-yielded buffered item with sequence number 1 was
still in slot 1 before the handle was dropped, but the `Drop` impl exhausts
the iterator: afterwards slot 1 is empty and `next_sequence_number` is 2
(the claim requires slot 1 still occupied and `next_sequence_number = 1`). -/
theorem drop_after_k_cex :
    ((((run Unit 5 [(1, ())]).1.insert 0 ()).2.next).2.items.getD 1 none
        = some (1, ()))
    ∧ (drain (((run Unit 5 [(1, ())]).1.insert 0 ()).2.next).2).2.items.getD 1 none
        = none
    ∧ (drain (((run Unit 5 [(1, ())]).1.insert 0 ()).2.next).2).2.next_sequence_number
        = 2 := by decide

/-- C5 (amended): stopping a drain after `k` consumed items and abandoning
the handle is safe, but leaves the buffer as if the ENTIRE available run had
been delivered: the resulting state equals the exhaustion state, satisfies
the invariant, has an empty slot at `read_pos`, and any later insert
workload resumes correctly from the updated position — its drains yield
exactly the consecutive sequence numbers starting at the updated
`next_sequence_number`. -/
theorem drop_after_k_amended {T : Type} {N : Nat} {b : OrderedBuffer T}
    (hN : 0 < N) (hb : Reachable T N b) (k : Nat) (l : List (Nat × T)) :
    (drain (stepIter k b)).2 = (drain b).2
    ∧ WF N (drain (stepIter k b)).2
    ∧ atRest (drain (stepIter k b)).2
    ∧ (runFrom (drain (stepIter k b)).2 l).2.1.map Prod.fst
        = List.range' (drain (stepIter k b)).2.next_sequence_number
            ((runFrom (drain (stepIter k b)).2 l).1.next_sequence_number
              - (drain (stepIter k b)).2.next_sequence_number) := by
  have hwf := reachable_wf hN hb
  have hwfs : WF N (stepIter k b) := wf_stepIter k hwf
  have hwfd : WF N (drain (stepIter k b)).2 := (drain_spec hwfs).2.2.1
  exact ⟨drain_stepIter k b, hwfd, drain_atRest _,
    (RunLemmas.runFrom_spec l _ hwfd (drain_atRest _)).1⟩

/-- Witness for C5 (amended): after buffering 1 and 0, one consumed item
plus abandonment lands in the same state as full exhaustion. -/
theorem drop_after_k_amended_witness :
    (drain (stepIter 1 (frun Unit 5 [FOp.ins 1 (), FOp.ins 0 ()]))).2
      = (drain (frun Unit 5 [FOp.ins 1 (), FOp.ins 0 ()])).2 :=
  (drop_after_k_amended (by decide) ⟨[FOp.ins 1 (), FOp.ins 0 ()], rfl⟩ 1
    [(2, ())]).1

/-- C6: dropping a drain iterator after `k` consumed items removes and
discards the whole remaining contiguous run: the final state is exactly the
run-to-exhaustion state, every discarded pair's sequence number lies below
the final `next_sequence_number`, and any later workload's drains yield
only sequence numbers at or above that value — so the discarded items are
never yielded again. -/
theorem drop_exhausts {T : Type} {N : Nat} {b : OrderedBuffer T}
    (hN : 0 < N) (hb : Reachable T N b) (k : Nat) (l : List (Nat × T)) :
    (drain (stepIter k b)).2 = (drain b).2
    ∧ (∀ p ∈ (drain (stepIter k b)).1,
        p.1 < (drain b).2.next_sequence_number)
    ∧ (∀ q ∈ (runFrom (drain b).2 l).2.1,
        (drain b).2.next_sequence_number ≤ q.1) := by
  have hwf := reachable_wf hN hb
  have hwfs : WF N (stepIter k b) := wf_stepIter k hwf
  obtain ⟨hd1, hd2, -, -⟩ := drain_spec hwfs
  have heqst : (drain (stepIter k b)).2 = (drain b).2 := drain_stepIter k b
  refine ⟨heqst, fun p hp => ?_, fun q hq => ?_⟩
  · have hmem : p.1 ∈ (drain (stepIter k b)).1.map Prod.fst :=
      List.mem_map_of_mem Prod.fst hp
    rw [hd1] at hmem
    have hb2 := List.mem_range'_1.1 hmem
    rw [← heqst]
    omega
  · obtain ⟨hr1, -, -, -, -⟩ := RunLemmas.runFrom_spec l (drain b).2
      (drain_spec hwf).2.2.1 (drain_atRest b)
    have hmem : q.1 ∈ (runFrom (drain b).2 l).2.1.map Prod.fst :=
      List.mem_map_of_mem Prod.fst hq
    rw [hr1] at hmem
    exact (List.mem_range'_1.1 hmem).1

/-- Witness for C6: with sequence number 0 buffered, dropping the iterator
immediately (zero consumed items) exhausts it to the same state as a full
drain. -/
theorem drop_exhausts_witness :
    (drain (stepIter 0 (frun Unit 5 [FOp.ins 0 ()]))).2
      = (drain (frun Unit 5 [FOp.ins 0 ()])).2 :=
  (drop_exhausts (by decide) ⟨[FOp.ins 0 ()], rfl⟩ 0 []).1

/-- C10: every single drain terminates within the buffer's capacity: it
yields at most `N` items (`N = items.length`), fuel beyond `N` changes
nothing, and after the drain — equivalently after `N` bare iterator steps —
the slot at `read_pos` is empty. -/
theorem drain_bounded {T : Type} (b : OrderedBuffer T) :
    (drain b).1.length ≤ b.items.length
    ∧ (∀ m, drainAux (b.items.length + m) b = drain b)
    ∧ atRest (drain b).2
    ∧ (drain b).2 = stepIter b.items.length b :=
  ⟨drain_length_le b, drain_fuel_stable b, drain_atRest b,
    drain_state_eq_stepIter b⟩

end OrderedBufferSpec
